import Mathlib

/-!
# Verification of the typlate template engine

Shallow embedding of `src/typlate/src/lib.rs` (and its sibling
`src/typlate/src/string.rs`): the template compiler (`FromStr::from_str`),
the element model (`TemplateElement`), the renderer
(`TemplateString::format` / `ParameterizedTemplate`), and the canonical
serializer (`impl Display for TemplateString`).

Rust strings are modelled as `List Char`; the governing field list
`T::FIELDS` is a `List (List Char)` passed explicitly.
-/

namespace Typlate

/-- `enum TemplateElement { Text(String), Var(usize) }` from lib.rs. -/
inductive TemplateElement where
  | Text (s : List Char) : TemplateElement
  | Var (i : Nat) : TemplateElement
deriving DecidableEq, Repr

/-- The three error return sites of `from_str` (lib.rs lines 121, 128, 135),
as an inductive; `message` below recovers the exact Rust error strings. -/
inductive CompileError where
  | unknownField (name : List Char) : CompileError
  | unclosedBracket : CompileError
  | unmatchedClosing : CompileError
deriving DecidableEq, Repr

/-- The `String` payloads `from_str` actually returns in its `Err` cases. -/
def CompileError.message : CompileError → List Char
  | .unknownField name => ("Unknown field name: ").toList ++ name
  | .unclosedBracket => ("Unclosed bracket in template").toList
  | .unmatchedClosing => ("Unmatched closing bracket").toList

/-- `T::FIELDS.iter().position(|&f| f == name)` (lib.rs lines 118-120):
index of the first list entry equal to `name`. -/
def position (name : List Char) : List (List Char) → Option Nat
  | [] => none
  | f :: fs => if f = name then some 0 else (position name fs).map (· + 1)

/-- The flush of the literal buffer into the element list: `from_str`
pushes `Text(text)` only when the buffer is non-empty
(lib.rs lines 110-113 and 142-144). -/
def flush (elems : List TemplateElement) (text : List Char) : List TemplateElement :=
  if text.isEmpty then elems else elems ++ [.Text text]

mutual

/-- The main scan loop of `from_str` (lib.rs lines 101-140): `cs` is the
remaining input, `text` the accumulating literal buffer, `elems` the output
built so far.  The inner `for` loop that captures a placeholder name is
`parseName`. -/
def fromStrAux (fields : List (List Char)) :
    List Char → List Char → List TemplateElement → Except CompileError (List TemplateElement)
  | [], text, elems => .ok (flush elems text)
  | '\x7b' :: '\x7b' :: rest, text, elems => fromStrAux fields rest (text ++ ['\x7b']) elems
  | '\x7b' :: rest, _text, elems => parseName fields rest [] (flush elems _text)
  | '\x7d' :: '\x7d' :: rest, text, elems => fromStrAux fields rest (text ++ ['\x7d']) elems
  | '\x7d' :: _, _, _ => .error .unmatchedClosing
  | c :: rest, text, elems => fromStrAux fields rest (text ++ [c]) elems

/-- The inner placeholder loop of `from_str` (lib.rs lines 115-128): reads
characters into `name` until a `\x7d`, then looks the name up in `fields`
and appends `Var index`, or fails. -/
def parseName (fields : List (List Char)) :
    List Char → List Char → List TemplateElement → Except CompileError (List TemplateElement)
  | [], _, _ => .error .unclosedBracket
  | '\x7d' :: rest, name, elems =>
      match position name fields with
      | none => .error (.unknownField name)
      | some i => fromStrAux fields rest [] (elems ++ [.Var i])
  | c :: rest, name, elems => parseName fields rest (name ++ [c]) elems

end

/-- `FromStr::from_str` (lib.rs lines 96-149): scan with empty buffer and
empty output. -/
def from_str (fields : List (List Char)) (s : List Char) :
    Except CompileError (List TemplateElement) :=
  fromStrAux fields s [] []

/-- The escaping of one literal-text element performed by
`impl Display for TemplateString` (lib.rs lines 199-207): every brace in
the text is doubled, other characters pass through. -/
def escapeText : List Char → List Char
  | [] => []
  | c :: rest =>
      (if c = '\x7b' then ['\x7b', '\x7b']
       else if c = '\x7d' then ['\x7d', '\x7d'] else [c]) ++ escapeText rest

/-- `impl Display for TemplateString` (lib.rs lines 195-217), the canonical
serializer.  `T::FIELDS[*index]` panics when the index is out of range, so
the model returns `none` there and `some` of the rendered characters
otherwise. -/
def displayElems (fields : List (List Char)) :
    List TemplateElement → Option (List Char)
  | [] => some []
  | .Text s :: rest => (displayElems fields rest).map (escapeText s ++ ·)
  | .Var i :: rest =>
      match fields[i]? with
      | none => none
      | some f => (displayElems fields rest).map (fun r => '\x7b' :: (f ++ '\x7d' :: r))

/-- `TemplateString::format` via `ParameterizedTemplate` (lib.rs lines
74-91): `vals` lists the rendered field values of the provider instance,
in `FIELDS` order (`fmt_field` renders field `i`; out of range it panics,
modelled as `none`). -/
def formatElems (vals : List (List Char)) :
    List TemplateElement → Option (List Char)
  | [] => some []
  | .Text s :: rest => (formatElems vals rest).map (s ++ ·)
  | .Var i :: rest =>
      match vals[i]? with
      | none => none
      | some v => (formatElems vals rest).map (v ++ ·)

/-! ## Invariants of parsed element sequences -/

/-- A field name that a parsed placeholder can have captured: the capture
loop stops at the first `\x7d`, so the name contains none, and a name
starting with `\x7b` is unreachable because the escape branch fires
first. -/
def nameOkB (f : List Char) : Bool :=
  decide ('\x7d' ∉ f) && decide (f.head? ≠ some '\x7b')

/-- Well-formedness of one element with respect to the governing field
list: parsed `Text` runs are non-empty, and a parsed `Var i` points at the
first occurrence of its name in `fields`. -/
def elemOk (fields : List (List Char)) : TemplateElement → Bool
  | .Text s => !s.isEmpty
  | .Var i =>
      match fields[i]? with
      | some f => (position f fields == some i) && nameOkB f
      | none => false

/-- No two adjacent `Text` elements occur in the list. -/
def noAdjTexts : List TemplateElement → Bool
  | .Text _ :: .Text _ :: _ => false
  | _ :: rest => noAdjTexts rest
  | [] => true

/-- The list is empty or its last element is a `Var`.  This holds of the
output accumulator at every recursive call of the scan: a `Text` is only
flushed together with the `Var` that follows it, or at the very end. -/
def endsVar (l : List TemplateElement) : Bool :=
  match l.getLast? with
  | some (.Text _) => false
  | _ => true

/-! ## Lemmas about `position` -/

theorem position_some_get {name : List Char} {fields : List (List Char)} {i : Nat}
    (h : position name fields = some i) : fields[i]? = some name := by
  induction fields generalizing i with
  | nil => simp [position] at h
  | cons f fs ih =>
      by_cases hf : f = name
      · simp [position, hf] at h
        subst h
        simp [hf]
      · simp [position, hf] at h
        obtain ⟨j, hj, rfl⟩ := h
        simpa using ih hj

theorem position_some_first {name : List Char} {fields : List (List Char)} {i : Nat}
    (h : position name fields = some i) :
    ∀ j, j < i → fields[j]? ≠ some name := by
  induction fields generalizing i with
  | nil => simp [position] at h
  | cons f fs ih =>
      by_cases hf : f = name
      · simp [position, hf] at h
        omega
      · simp [position, hf] at h
        obtain ⟨k, hk, rfl⟩ := h
        intro j hj
        cases j with
        | zero => simpa using hf
        | succ j => simpa using ih hk j (by omega)

theorem position_none {name : List Char} {fields : List (List Char)} :
    position name fields = none ↔ name ∉ fields := by
  induction fields with
  | nil => simp [position]
  | cons f fs ih =>
      by_cases hf : f = name
      · simp [position, hf]
      · simp [position, hf, ih, Option.map_eq_none]
        intro h
        exact fun h2 => hf h2.symm

/-! ## Structural lemmas about the accumulators -/

theorem flush_all {fields : List (List Char)} {elems : List TemplateElement} {text : List Char}
    (h : elems.all (elemOk fields)) : (flush elems text).all (elemOk fields) := by
  unfold flush
  split
  · exact h
  · rename_i ht
    simp only [List.all_append, h, Bool.true_and, List.all_cons, List.all_nil, Bool.and_true,
      elemOk]
    simpa using ht

theorem endsVar_concat_var {l : List TemplateElement} {i : Nat} :
    endsVar (l ++ [.Var i]) = true := by
  simp [endsVar, List.getLast?_concat]

theorem endsVar_cons_cons {x y : TemplateElement} {t : List TemplateElement} :
    endsVar (x :: y :: t) = endsVar (y :: t) := by
  simp [endsVar, List.getLast?_cons_cons]

theorem noAdjTexts_concat {l : List TemplateElement} {a : TemplateElement}
    (h : noAdjTexts l) (h2 : endsVar l = true ∨ ∀ s, a ≠ .Text s) :
    noAdjTexts (l ++ [a]) := by
  induction l using noAdjTexts.induct with
  | case1 s t rest => simp [noAdjTexts] at h
  | case2 x t hguard ih =>
      simp only [noAdjTexts] at h
      rcases t with _ | ⟨y, t'⟩
      · rcases x with s | i
        · rcases h2 with h2 | h2
          · simp [endsVar] at h2
          · rcases a with s2 | i2
            · exact absurd rfl (h2 s2)
            · simp [noAdjTexts]
        · cases a <;> simp [noAdjTexts]
      · rcases x with s | i
        · rcases y with s2 | i2
          · exact absurd rfl (hguard s s2 t' rfl)
          · simp only [List.cons_append, noAdjTexts]
            apply ih
            · simpa [noAdjTexts] using h
            · rcases h2 with h2 | h2
              · exact Or.inl (by rwa [endsVar_cons_cons] at h2)
              · exact Or.inr h2
        · simp only [List.cons_append, noAdjTexts]
          apply ih
          · simpa [noAdjTexts] using h
          · rcases h2 with h2 | h2
            · exact Or.inl (by rwa [endsVar_cons_cons] at h2)
            · exact Or.inr h2
  | case3 => cases a <;> simp [noAdjTexts]

theorem flush_noAdj {elems : List TemplateElement} {text : List Char}
    (h : noAdjTexts elems) (h2 : endsVar elems) : noAdjTexts (flush elems text) := by
  unfold flush
  split
  · exact h
  · exact noAdjTexts_concat h (Or.inl h2)

theorem nameOkB_snoc {name : List Char} {c : Char} (h : nameOkB name = true)
    (hc : c ≠ '\x7d') (hd : name = [] → c ≠ '\x7b') : nameOkB (name ++ [c]) = true := by
  simp only [nameOkB, Bool.and_eq_true, decide_eq_true_eq] at h ⊢
  obtain ⟨h1, h2⟩ := h
  constructor
  · simp only [List.mem_append, List.mem_singleton]
    rintro (hm | rfl)
    · exact h1 hm
    · exact hc rfl
  · rcases name with _ | ⟨x, rest⟩
    · simpa using hd rfl
    · simpa using h2

/-! ## One-step unfolding lemmas for the scan

These restate the match arms of `fromStrAux` and `parseName`, mirroring
the branches of the Rust loop at lib.rs lines 101-140. -/

theorem fromStrAux_nil {fields : List (List Char)} {text : List Char}
    {elems : List TemplateElement} :
    fromStrAux fields [] text elems = .ok (flush elems text) := rfl

theorem fromStrAux_openEsc {fields : List (List Char)} {rest text : List Char}
    {elems : List TemplateElement} :
    fromStrAux fields ('\x7b' :: '\x7b' :: rest) text elems
      = fromStrAux fields rest (text ++ ['\x7b']) elems := rfl

theorem fromStrAux_open {fields : List (List Char)} {rest text : List Char}
    {elems : List TemplateElement} (h : ∀ r, rest ≠ '\x7b' :: r) :
    fromStrAux fields ('\x7b' :: rest) text elems
      = parseName fields rest [] (flush elems text) := by
  match rest with
  | [] => rfl
  | c :: r =>
      have hc : c ≠ '\x7b' := fun e => h r (by rw [e])
      simp [fromStrAux, hc]

theorem fromStrAux_closeEsc {fields : List (List Char)} {rest text : List Char}
    {elems : List TemplateElement} :
    fromStrAux fields ('\x7d' :: '\x7d' :: rest) text elems
      = fromStrAux fields rest (text ++ ['\x7d']) elems := rfl

theorem fromStrAux_close_err {fields : List (List Char)} {rest text : List Char}
    {elems : List TemplateElement} (h : ∀ r, rest ≠ '\x7d' :: r) :
    fromStrAux fields ('\x7d' :: rest) text elems = .error .unmatchedClosing := by
  match rest with
  | [] => rfl
  | c :: r =>
      have hc : c ≠ '\x7d' := fun e => h r (by rw [e])
      simp [fromStrAux, hc]

theorem fromStrAux_other {fields : List (List Char)} {rest text : List Char}
    {elems : List TemplateElement} {c : Char} (h1 : c ≠ '\x7b') (h2 : c ≠ '\x7d') :
    fromStrAux fields (c :: rest) text elems
      = fromStrAux fields rest (text ++ [c]) elems := by
  simp [fromStrAux, h1, h2]

theorem parseName_nil {fields : List (List Char)} {name : List Char}
    {elems : List TemplateElement} :
    parseName fields [] name elems = .error .unclosedBracket := rfl

theorem parseName_close {fields : List (List Char)} {rest name : List Char}
    {elems : List TemplateElement} :
    parseName fields ('\x7d' :: rest) name elems
      = (match position name fields with
         | none => .error (.unknownField name)
         | some i => fromStrAux fields rest [] (elems ++ [.Var i])) := rfl

theorem parseName_other {fields : List (List Char)} {rest name : List Char}
    {elems : List TemplateElement} {c : Char} (h : c ≠ '\x7d') :
    parseName fields (c :: rest) name elems
      = parseName fields rest (name ++ [c]) elems := by
  simp [parseName, h]

/-! ## Every successful parse yields a well-formed element sequence -/

theorem parse_good_rec (n : Nat) : ∀ fields : List (List Char), ∀ cs : List Char,
    cs.length ≤ n →
    ((∀ text elems t, elems.all (elemOk fields) = true → noAdjTexts elems = true →
        endsVar elems = true →
        fromStrAux fields cs text elems = .ok t →
        t.all (elemOk fields) = true ∧ noAdjTexts t = true)
  ∧ (∀ name elems t, elems.all (elemOk fields) = true → noAdjTexts elems = true →
        nameOkB name = true → (name = [] → ∀ r, cs ≠ '\x7b' :: r) →
        parseName fields cs name elems = .ok t →
        t.all (elemOk fields) = true ∧ noAdjTexts t = true)) := by
  induction n with
  | zero =>
      intro fields cs hlen
      have : cs = [] := List.eq_nil_of_length_eq_zero (Nat.le_zero.mp hlen)
      subst this
      constructor
      · intro text elems t hall hadj hev hp
        rw [fromStrAux_nil] at hp
        injection hp with hp
        subst hp
        exact ⟨flush_all hall, flush_noAdj hadj hev⟩
      · intro name elems t _ _ _ _ hp
        rw [parseName_nil] at hp
        exact absurd hp (by simp)
  | succ n ih =>
      intro fields cs hlen
      rcases cs with _ | ⟨c, cs'⟩
      · constructor
        · intro text elems t hall hadj hev hp
          rw [fromStrAux_nil] at hp
          injection hp with hp
          subst hp
          exact ⟨flush_all hall, flush_noAdj hadj hev⟩
        · intro name elems t _ _ _ _ hp
          rw [parseName_nil] at hp
          exact absurd hp (by simp)
      · simp only [List.length_cons, Nat.add_le_add_iff_right] at hlen
        constructor
        · intro text elems t hall hadj hev hp
          by_cases hc : c = '\x7b'
          · subst hc
            rcases cs' with _ | ⟨d, cs''⟩
            · rw [fromStrAux_open (by intro r h; exact List.noConfusion h)] at hp
              rw [parseName_nil] at hp
              exact absurd hp (by simp)
            · by_cases hd : d = '\x7b'
              · subst hd
                rw [fromStrAux_openEsc] at hp
                exact (ih fields cs'' (by simp at hlen; omega)).1 _ _ _ hall hadj hev hp
              · rw [fromStrAux_open (by intro r h; injection h with h1 _; exact hd h1)] at hp
                refine (ih fields (d :: cs'') hlen).2 [] _ _ (flush_all hall)
                  (flush_noAdj hadj hev) (by decide) ?_ hp
                intro _ r h
                injection h with h1 _
                exact hd h1
          · by_cases hc2 : c = '\x7d'
            · subst hc2
              rcases cs' with _ | ⟨d, cs''⟩
              · rw [fromStrAux_close_err (by intro r h; exact List.noConfusion h)] at hp
                exact absurd hp (by simp)
              · by_cases hd : d = '\x7d'
                · subst hd
                  rw [fromStrAux_closeEsc] at hp
                  exact (ih fields cs'' (by simp at hlen; omega)).1 _ _ _ hall hadj hev hp
                · rw [fromStrAux_close_err
                    (by intro r h; injection h with h1 _; exact hd h1)] at hp
                  exact absurd hp (by simp)
            · rw [fromStrAux_other hc hc2] at hp
              exact (ih fields cs' hlen).1 _ _ _ hall hadj hev hp
        · intro name elems t hall hadj hnm hhd hp
          by_cases hc : c = '\x7d'
          · subst hc
            rw [parseName_close] at hp
            rcases hpos : position name fields with _ | i
            · rw [hpos] at hp
              exact absurd hp (by simp)
            · rw [hpos] at hp
              refine (ih fields cs' hlen).1 [] (elems ++ [.Var i]) t ?_ ?_ ?_ hp
              · simp only [List.all_append, hall, Bool.true_and, List.all_cons, List.all_nil,
                  Bool.and_true]
                simp only [elemOk, position_some_get hpos, hpos, beq_self_eq_true,
                  Bool.true_and]
                exact hnm
              · exact noAdjTexts_concat hadj (Or.inr (fun s h => TemplateElement.noConfusion h))
              · exact endsVar_concat_var
          · rw [parseName_other hc] at hp
            refine (ih fields cs' hlen).2 (name ++ [c]) elems t hall hadj ?_ ?_ hp
            · refine nameOkB_snoc hnm hc ?_
              intro hn
              have := hhd hn
              intro he
              exact this cs' (by rw [he])
            · intro habs
              exact absurd habs (by simp)

/-- Every successfully parsed template is well-formed: all elements pass
`elemOk` and no two adjacent `Text` elements occur. -/
theorem parse_good {fields : List (List Char)} {s : List Char} {t : List TemplateElement}
    (h : from_str fields s = .ok t) :
    t.all (elemOk fields) = true ∧ noAdjTexts t = true :=
  (parse_good_rec s.length fields s le_rfl).1 [] [] t rfl rfl rfl h

/-! ## Round-trip machinery -/


theorem fromStrAux_escapeText (fields : List (List Char)) (s : List Char) :
    ∀ cs text elems, fromStrAux fields (escapeText s ++ cs) text elems
      = fromStrAux fields cs (text ++ s) elems := by
  induction s with
  | nil => intro cs text elems; simp [escapeText]
  | cons c s ih =>
      intro cs text elems
      by_cases h1 : c = '\x7b'
      · subst h1
        show fromStrAux fields ('\x7b' :: '\x7b' :: (escapeText s ++ cs)) text elems = _
        rw [fromStrAux_openEsc, ih]
        simp
      · by_cases h2 : c = '\x7d'
        · subst h2
          show fromStrAux fields ('\x7d' :: '\x7d' :: (escapeText s ++ cs)) text elems = _
          rw [fromStrAux_closeEsc, ih]
          simp
        · have he : escapeText (c :: s) = [c] ++ escapeText s := by
            simp [escapeText, h1, h2]
          rw [he, List.append_assoc, List.singleton_append, fromStrAux_other h1 h2, ih]
          simp

theorem parseName_run (fields : List (List Char)) {f : List Char} (hf : '\x7d' ∉ f) :
    ∀ cs acc elems, parseName fields (f ++ '\x7d' :: cs) acc elems
      = (match position (acc ++ f) fields with
         | none => .error (.unknownField (acc ++ f))
         | some i => fromStrAux fields cs [] (elems ++ [.Var i])) := by
  induction f with
  | nil => intro cs acc elems; simp [parseName_close]
  | cons c f ih =>
      intro cs acc elems
      have hc : c ≠ '\x7d' := by
        intro h
        exact hf (by simp [h])
      have hf2 : '\x7d' ∉ f := fun h => hf (List.mem_cons_of_mem _ h)
      rw [List.cons_append, parseName_other hc, ih hf2]
      simp [List.append_assoc]

theorem nameOkB_not_mem {f : List Char} (h : nameOkB f = true) : '\x7d' ∉ f := by
  simp only [nameOkB, Bool.and_eq_true, decide_eq_true_eq] at h
  exact h.1

theorem fromStrAux_var (fields : List (List Char)) {f : List Char} (hn : nameOkB f = true)
    (cs text : List Char) (elems : List TemplateElement) :
    fromStrAux fields ('\x7b' :: (f ++ '\x7d' :: cs)) text elems
      = (match position f fields with
         | none => .error (.unknownField f)
         | some i => fromStrAux fields cs [] (flush elems text ++ [.Var i])) := by
  have h1 : ∀ r, f ++ '\x7d' :: cs ≠ '\x7b' :: r := by
    rcases f with _ | ⟨x, f2⟩
    · intro r h
      simp at h
    · intro r h
      simp only [nameOkB, Bool.and_eq_true, decide_eq_true_eq] at hn
      simp at h
      exact hn.2 (by simp [h.1])
  rw [fromStrAux_open h1, parseName_run fields (nameOkB_not_mem hn)]
  simp

theorem displayElems_isSome {fields : List (List Char)} {t : List TemplateElement}
    (h : t.all (elemOk fields) = true) : ∃ out, displayElems fields t = some out := by
  induction t with
  | nil => exact ⟨[], rfl⟩
  | cons e rest ih =>
      simp only [List.all_cons, Bool.and_eq_true] at h
      obtain ⟨out2, hout2⟩ := ih h.2
      rcases e with s | i
      · exact ⟨escapeText s ++ out2, by simp [displayElems, hout2]⟩
      · have he := h.1
        simp only [elemOk] at he
        rcases hg : fields[i]? with _ | f
        · rw [hg] at he
          simp at he
        · exact ⟨'\x7b' :: (f ++ '\x7d' :: out2), by simp [displayElems, hg, hout2]⟩

theorem reparse_aux (fields : List (List Char)) (t : List TemplateElement) :
    ∀ text elems out,
      t.all (elemOk fields) = true → noAdjTexts t = true →
      (∀ s r, t = .Text s :: r → text = []) →
      displayElems fields t = some out →
      fromStrAux fields out text elems = .ok (flush elems text ++ t) := by
  induction t with
  | nil =>
      intro text elems out _ _ _ hd
      simp only [displayElems, Option.some_inj] at hd
      subst hd
      rw [fromStrAux_nil]
      simp
  | cons e rest ih =>
      intro text elems out hall hadj hhd hd
      simp only [List.all_cons, Bool.and_eq_true] at hall
      rcases e with s | i
      · have htext : text = [] := hhd s rest rfl
        subst htext
        simp only [displayElems] at hd
        rcases hdr : displayElems fields rest with _ | out2
        · rw [hdr] at hd
          simp at hd
        · rw [hdr] at hd
          simp at hd
          subst hd
          rw [fromStrAux_escapeText]
          have hs : ¬s.isEmpty := by
            have := hall.1
            simp only [elemOk, Bool.not_eq_true'] at this
            simp [this]
          have hrest : fromStrAux fields out2 s elems = .ok (flush elems s ++ rest) := by
            refine ih s elems out2 hall.2 ?_ ?_ hdr
            · rcases rest with _ | ⟨e2, r2⟩
              · rfl
              · rcases e2 with s2 | i2
                · simp [noAdjTexts] at hadj
                · simpa [noAdjTexts] using hadj
            · intro s2 r2 hr
              rw [hr] at hadj
              simp [noAdjTexts] at hadj
          rw [List.nil_append, hrest]
          simp [flush, hs]
      · have he := hall.1
        simp only [elemOk] at he
        rcases hg : fields[i]? with _ | f
        · rw [hg] at he
          simp at he
        · rw [hg] at he
          simp only [Bool.and_eq_true, beq_iff_eq] at he
          simp only [displayElems, hg] at hd
          rcases hdr : displayElems fields rest with _ | out2
          · rw [hdr] at hd
            simp at hd
          · rw [hdr] at hd
            simp at hd
            subst hd
            rw [fromStrAux_var fields he.2, he.1]
            have hrest : fromStrAux fields out2 [] (flush elems text ++ [.Var i])
                = .ok (flush (flush elems text ++ [.Var i]) [] ++ rest) := by
              refine ih [] (flush elems text ++ [.Var i]) out2 hall.2 ?_ ?_ hdr
              · rcases rest with _ | ⟨e2, r2⟩
                · rfl
                · rcases e2 with s2 | i2
                  · simpa [noAdjTexts] using hadj
                  · simpa [noAdjTexts] using hadj
              · intro s2 r2 hr
                rfl
            show fromStrAux fields out2 [] (flush elems text ++ [.Var i])
                = Except.ok (flush elems text ++ .Var i :: rest)
            rw [hrest]
            simp [flush]

/-- Round-trip: re-parsing the canonical serialized form of a parsed
template yields the identical element sequence. -/
theorem roundtrip {fields : List (List Char)} {s : List Char} {t : List TemplateElement}
    (h : from_str fields s = .ok t) :
    ∃ out, displayElems fields t = some out ∧ from_str fields out = .ok t := by
  obtain ⟨hall, hadj⟩ := parse_good h
  obtain ⟨out, hout⟩ := displayElems_isSome hall
  refine ⟨out, hout, ?_⟩
  have := reparse_aux fields t [] [] out hall hadj (fun _ _ _ => rfl) hout
  simpa [from_str, flush] using this

/-! ## Output length and infallibility helpers -/


theorem flush_length_le {elems : List TemplateElement} {text : List Char} :
    elems.length ≤ (flush elems text).length := by
  unfold flush
  split <;> simp

theorem flush_length_lt {elems : List TemplateElement} {text : List Char}
    (h : text.isEmpty = false) : elems.length < (flush elems text).length := by
  unfold flush
  rw [if_neg (by simp [h])]
  simp

theorem parse_length_rec (n : Nat) : ∀ fields : List (List Char), ∀ cs : List Char,
    cs.length ≤ n →
    ((∀ text elems t, fromStrAux fields cs text elems = .ok t →
        elems.length ≤ t.length
        ∧ (text.isEmpty = false → elems.length < t.length)
        ∧ (cs ≠ [] → elems.length < t.length))
  ∧ (∀ name elems t, parseName fields cs name elems = .ok t →
        elems.length < t.length)) := by
  induction n with
  | zero =>
      intro fields cs hlen
      have : cs = [] := List.eq_nil_of_length_eq_zero (Nat.le_zero.mp hlen)
      subst this
      constructor
      · intro text elems t hp
        rw [fromStrAux_nil] at hp
        injection hp with hp
        subst hp
        exact ⟨flush_length_le, fun h => flush_length_lt h, fun h => absurd rfl h⟩
      · intro name elems t hp
        rw [parseName_nil] at hp
        exact absurd hp (by simp)
  | succ n ih =>
      intro fields cs hlen
      rcases cs with _ | ⟨c, cs'⟩
      · constructor
        · intro text elems t hp
          rw [fromStrAux_nil] at hp
          injection hp with hp
          subst hp
          exact ⟨flush_length_le, fun h => flush_length_lt h, fun h => absurd rfl h⟩
        · intro name elems t hp
          rw [parseName_nil] at hp
          exact absurd hp (by simp)
      · simp only [List.length_cons, Nat.add_le_add_iff_right] at hlen
        constructor
        · intro text elems t hp
          by_cases hc : c = '\x7b'
          · subst hc
            rcases cs' with _ | ⟨d, cs''⟩
            · rw [fromStrAux_open (by intro r h; exact List.noConfusion h)] at hp
              rw [parseName_nil] at hp
              exact absurd hp (by simp)
            · by_cases hd : d = '\x7b'
              · subst hd
                rw [fromStrAux_openEsc] at hp
                have := ((ih fields cs'' (by simp at hlen; omega)).1 _ _ _ hp).2.1 (by simp)
                exact ⟨Nat.le_of_lt this, fun _ => this, fun _ => this⟩
              · rw [fromStrAux_open (by intro r h; injection h with h1 _; exact hd h1)] at hp
                have := (ih fields (d :: cs'') hlen).2 _ _ _ hp
                have h2 : elems.length < t.length := Nat.lt_of_le_of_lt flush_length_le this
                exact ⟨Nat.le_of_lt h2, fun _ => h2, fun _ => h2⟩
          · by_cases hc2 : c = '\x7d'
            · subst hc2
              rcases cs' with _ | ⟨d, cs''⟩
              · rw [fromStrAux_close_err (by intro r h; exact List.noConfusion h)] at hp
                exact absurd hp (by simp)
              · by_cases hd : d = '\x7d'
                · subst hd
                  rw [fromStrAux_closeEsc] at hp
                  have := ((ih fields cs'' (by simp at hlen; omega)).1 _ _ _ hp).2.1 (by simp)
                  exact ⟨Nat.le_of_lt this, fun _ => this, fun _ => this⟩
                · rw [fromStrAux_close_err
                    (by intro r h; injection h with h1 _; exact hd h1)] at hp
                  exact absurd hp (by simp)
            · rw [fromStrAux_other hc hc2] at hp
              have := ((ih fields cs' hlen).1 _ _ _ hp).2.1 (by simp)
              exact ⟨Nat.le_of_lt this, fun _ => this, fun _ => this⟩
        · intro name elems t hp
          by_cases hc : c = '\x7d'
          · subst hc
            rw [parseName_close] at hp
            rcases hpos : position name fields with _ | i
            · rw [hpos] at hp
              exact absurd hp (by simp)
            · rw [hpos] at hp
              have := ((ih fields cs' hlen).1 _ _ _ hp).1
              simp only [List.length_append, List.length_cons, List.length_nil] at this
              omega
          · rw [parseName_other hc] at hp
            exact (ih fields cs' hlen).2 _ _ _ hp

theorem parse_nonempty {fields : List (List Char)} {s : List Char} {t : List TemplateElement}
    (h : from_str fields s = .ok t) : t = [] ↔ s = [] := by
  constructor
  · intro ht
    by_contra hs
    have := ((parse_length_rec s.length fields s le_rfl).1 [] [] t h).2.2 hs
    rw [ht] at this
    simp at this
  · intro hs
    subst hs
    have : from_str fields [] = .ok [] := rfl
    rw [this] at h
    injection h with h
    exact h.symm

theorem formatElems_isSome {fields vals : List (List Char)} {t : List TemplateElement}
    (h : t.all (elemOk fields) = true) (hlen : vals.length = fields.length) :
    ∃ out, formatElems vals t = some out := by
  induction t with
  | nil => exact ⟨[], rfl⟩
  | cons e rest ih =>
      simp only [List.all_cons, Bool.and_eq_true] at h
      obtain ⟨out2, hout2⟩ := ih h.2
      rcases e with s | i
      · exact ⟨s ++ out2, by simp [formatElems, hout2]⟩
      · have he := h.1
        simp only [elemOk] at he
        rcases hg : fields[i]? with _ | f
        · rw [hg] at he
          simp at he
        · have hi : i < fields.length := by
            by_contra hi
            rw [List.getElem?_eq_none (Nat.le_of_not_lt hi)] at hg
            exact Option.noConfusion hg
          have hv : vals[i]? = some vals[i] := List.getElem?_eq_getElem (by omega)
          exact ⟨vals[i] ++ out2, by simp [formatElems, hv, hout2]⟩

theorem var_index_lt {fields : List (List Char)} {t : List TemplateElement}
    (h : t.all (elemOk fields) = true) :
    ∀ i, TemplateElement.Var i ∈ t → i < fields.length := by
  intro i hmem
  rw [List.all_eq_true] at h
  have := h _ hmem
  simp only [elemOk] at this
  rcases hg : fields[i]? with _ | f
  · rw [hg] at this
    simp at this
  · by_contra hi
    rw [List.getElem?_eq_none (Nat.le_of_not_lt hi)] at hg
    exact Option.noConfusion hg



theorem noAdjTexts_spec {l : List TemplateElement} (h : noAdjTexts l = true) :
    ∀ i : Nat, ∀ s1 s2 : List Char,
      ¬(l[i]? = some (.Text s1) ∧ l[i + 1]? = some (.Text s2)) := by
  induction l using noAdjTexts.induct with
  | case1 s t rest => simp [noAdjTexts] at h
  | case2 x t hguard ih =>
      simp only [noAdjTexts] at h
      intro i s1 s2 hcontra
      rcases i with _ | i
      · obtain ⟨h0, h1⟩ := hcontra
        simp only [List.getElem?_cons_zero, Option.some_inj] at h0
        rcases t with _ | ⟨y, t'⟩
        · simp at h1
        · simp at h1
          exact hguard s1 s2 t' h0 (by rw [h1])
      · exact ih h i s1 s2 (by simpa using hcontra)
  | case3 =>
      intro i s1 s2 hcontra
      simp at hcontra

theorem parseName_no_close {fields : List (List Char)} {cs : List Char}
    (h : '\x7d' ∉ cs) :
    ∀ name elems, parseName fields cs name elems = .error .unclosedBracket := by
  induction cs with
  | nil => intro name elems; exact parseName_nil
  | cons c rest ih =>
      intro name elems
      have hc : c ≠ '\x7d' := fun he => h (by simp [he])
      rw [parseName_other hc]
      exact ih (fun hm => h (List.mem_cons_of_mem _ hm)) _ _

end Typlate

namespace Typlate

/-! ## The phantom-typed template value and its comparisons -/

/-- `TemplateString<T>` (lib.rs lines 52-55): the element sequence plus a
phantom association to the provider type `T`, with no runtime data for
`T`. -/
structure TemplateString (T : Type) where
  elements : List TemplateElement

/-- `impl PartialEq for TemplateString<T>` (lib.rs lines 161-165):
equality of the element sequences. -/
def TemplateString.beq {T : Type} (a b : TemplateString T) : Bool :=
  a.elements == b.elements

/-- Lexicographic list comparison, as `Ord` on Rust `Vec`/slices. -/
def listCmp {α : Type} (f : α → α → Ordering) : List α → List α → Ordering
  | [], [] => .eq
  | [], _ :: _ => .lt
  | _ :: _, [] => .gt
  | a :: as, b :: bs =>
      match f a b with
      | .eq => listCmp f as bs
      | o => o

/-- The `derive(Ord)` order on `TemplateElement` (lib.rs line 23): variant
tag order puts `Text` before `Var`; within a tag the payload decides
(string comparison for `Text`, `usize` comparison for `Var`). -/
def TemplateElement.cmp : TemplateElement → TemplateElement → Ordering
  | .Text s, .Text t => listCmp compare s t
  | .Text _, .Var _ => .lt
  | .Var _, .Text _ => .gt
  | .Var i, .Var j => compare i j

/-- `impl Ord for TemplateString<T>` (lib.rs lines 175-179):
`self.elements.cmp(&other.elements)`. -/
def TemplateString.cmp {T : Type} (a b : TemplateString T) : Ordering :=
  listCmp TemplateElement.cmp a.elements b.elements

/-- `impl Hash for TemplateString<T>` (lib.rs lines 181-185): the hash is
whatever the hasher computes from the element sequence alone. -/
def TemplateString.hashVia {T : Type} (hasher : List TemplateElement → UInt64)
    (a : TemplateString T) : UInt64 :=
  hasher a.elements

end Typlate

namespace TyplateString

/-! The sibling implementation in src/typlate/src/string.rs: its `FromStr`
scan (string.rs lines 78-135) and `Display` impl (lines 178-200),
translated independently of the lib.rs one. -/

open Typlate (TemplateElement CompileError position flush)

mutual

/-- Main scan loop of `from_str` in string.rs (lines 86-125). -/
def fromStrAux (fields : List (List Char)) :
    List Char → List Char → List TemplateElement →
      Except CompileError (List TemplateElement)
  | [], text, elems => .ok (flush elems text)
  | '\x7b' :: '\x7b' :: rest, text, elems => fromStrAux fields rest (text ++ ['\x7b']) elems
  | '\x7b' :: rest, _text, elems => parseName fields rest [] (flush elems _text)
  | '\x7d' :: '\x7d' :: rest, text, elems => fromStrAux fields rest (text ++ ['\x7d']) elems
  | '\x7d' :: _, _, _ => .error .unmatchedClosing
  | c :: rest, text, elems => fromStrAux fields rest (text ++ [c]) elems

/-- Placeholder-name loop of `from_str` in string.rs (lines 100-112). -/
def parseName (fields : List (List Char)) :
    List Char → List Char → List TemplateElement →
      Except CompileError (List TemplateElement)
  | [], _, _ => .error .unclosedBracket
  | '\x7d' :: rest, name, elems =>
      match position name fields with
      | none => .error (.unknownField name)
      | some i => fromStrAux fields rest [] (elems ++ [.Var i])
  | c :: rest, name, elems => parseName fields rest (name ++ [c]) elems

end

/-- `FromStr::from_str` in string.rs (lines 81-134). -/
def from_str (fields : List (List Char)) (s : List Char) :
    Except CompileError (List TemplateElement) :=
  fromStrAux fields s [] []

/-- Brace-doubling of a literal run in the string.rs `Display` impl
(lines 182-190). -/
def escapeText : List Char → List Char
  | [] => []
  | c :: rest =>
      (if c = '\x7b' then ['\x7b', '\x7b']
       else if c = '\x7d' then ['\x7d', '\x7d'] else [c]) ++ escapeText rest

/-- `impl Display for TemplateString` in string.rs (lines 178-200). -/
def displayElems (fields : List (List Char)) :
    List TemplateElement → Option (List Char)
  | [] => some []
  | .Text s :: rest => (displayElems fields rest).map (escapeText s ++ ·)
  | .Var i :: rest =>
      match fields[i]? with
      | none => none
      | some f => (displayElems fields rest).map (fun r => '\x7b' :: (f ++ '\x7d' :: r))

end TyplateString

namespace Typlate

theorem stringImpl_scan_eq (n : Nat) : ∀ fields : List (List Char), ∀ cs : List Char,
    cs.length ≤ n →
    ((∀ text elems, TyplateString.fromStrAux fields cs text elems
        = fromStrAux fields cs text elems)
  ∧ (∀ name elems, TyplateString.parseName fields cs name elems
        = parseName fields cs name elems)) := by
  induction n with
  | zero =>
      intro fields cs hlen
      have : cs = [] := List.eq_nil_of_length_eq_zero (Nat.le_zero.mp hlen)
      subst this
      exact ⟨fun text elems => rfl, fun name elems => rfl⟩
  | succ n ih =>
      intro fields cs hlen
      rcases cs with _ | ⟨c, cs'⟩
      · exact ⟨fun text elems => rfl, fun name elems => rfl⟩
      · simp only [List.length_cons, Nat.add_le_add_iff_right] at hlen
        constructor
        · intro text elems
          by_cases hc : c = '\x7b'
          · subst hc
            rcases cs' with _ | ⟨d, cs''⟩
            · rfl
            · by_cases hd : d = '\x7b'
              · subst hd
                show TyplateString.fromStrAux fields cs'' (text ++ ['\x7b']) elems = _
                rw [(ih fields cs'' (by simp at hlen; omega)).1, fromStrAux_openEsc]
              · have h1 : ∀ r, (d :: cs'') ≠ '\x7b' :: r := by
                  intro r h
                  injection h with h2 _
                  exact hd h2
                rw [fromStrAux_open h1]
                have h2 : TyplateString.fromStrAux fields ('\x7b' :: d :: cs'') text elems
                    = TyplateString.parseName fields (d :: cs'') [] (flush elems text) := by
                  simp [TyplateString.fromStrAux, hd]
                rw [h2, (ih fields (d :: cs'') hlen).2]
          · by_cases hc2 : c = '\x7d'
            · subst hc2
              rcases cs' with _ | ⟨d, cs''⟩
              · rfl
              · by_cases hd : d = '\x7d'
                · subst hd
                  show TyplateString.fromStrAux fields cs'' (text ++ ['\x7d']) elems = _
                  rw [(ih fields cs'' (by simp at hlen; omega)).1, fromStrAux_closeEsc]
                · have h1 : ∀ r, (d :: cs'') ≠ '\x7d' :: r := by
                    intro r h
                    injection h with h2 _
                    exact hd h2
                  rw [fromStrAux_close_err h1]
                  simp [TyplateString.fromStrAux, hd]
            · rw [fromStrAux_other hc hc2]
              have h2 : TyplateString.fromStrAux fields (c :: cs') text elems
                  = TyplateString.fromStrAux fields cs' (text ++ [c]) elems := by
                simp [TyplateString.fromStrAux, hc, hc2]
              rw [h2, (ih fields cs' hlen).1]
        · intro name elems
          by_cases hc : c = '\x7d'
          · subst hc
            rw [parseName_close]
            show (match position name fields with
                  | none => Except.error (CompileError.unknownField name)
                  | some i => TyplateString.fromStrAux fields cs' []
                      (elems ++ [TemplateElement.Var i])) = _
            rcases hpos : position name fields with _ | i
            · rfl
            · exact (ih fields cs' hlen).1 [] (elems ++ [.Var i])
          · rw [parseName_other hc]
            have h2 : TyplateString.parseName fields (c :: cs') name elems
                = TyplateString.parseName fields cs' (name ++ [c]) elems := by
              simp [TyplateString.parseName, hc]
            rw [h2, (ih fields cs' hlen).2]

theorem stringImpl_escape_eq (s : List Char) :
    TyplateString.escapeText s = escapeText s := by
  induction s with
  | nil => rfl
  | cons c rest ih => simp [TyplateString.escapeText, escapeText, ih]

theorem stringImpl_display_eq (fields : List (List Char)) (t : List TemplateElement) :
    TyplateString.displayElems fields t = displayElems fields t := by
  induction t with
  | nil => rfl
  | cons e rest ih =>
      rcases e with s | i
      · simp [TyplateString.displayElems, displayElems, stringImpl_escape_eq, ih]
      · rcases hg : fields[i]? with _ | f
        · simp [TyplateString.displayElems, displayElems, hg]
        · simp [TyplateString.displayElems, displayElems, hg, ih]

end Typlate

namespace Typlate

/-! ## The claims -/

/-- Claim C1: for every source string `s` that compiles successfully
against field list `fields`, the canonical serialized form of the result
exists and re-compiles against the same `fields` to the identical element
sequence. -/
theorem claim_c1 (fields : List (List Char)) (s : List Char) (t : List TemplateElement)
    (h : from_str fields s = .ok t) :
    ∃ out, displayElems fields t = some out ∧ from_str fields out = .ok t :=
  roundtrip h

theorem claim_c1_witness :
    ∃ out, displayElems [("bar").toList] [.Text ['a'], .Var 0] = some out
      ∧ from_str [("bar").toList] out = .ok [.Text ['a'], .Var 0] :=
  claim_c1 [("bar").toList] (("a\x7bbar\x7d").toList) [.Text ['a'], .Var 0] rfl

/-- Claim C2: every `Var i` in a successfully parsed template satisfies
`i < fields.length`, and both the canonical serializer and the renderer
(with one value per field) succeed on it. -/
theorem claim_c2 (fields : List (List Char)) (s : List Char) (t : List TemplateElement)
    (h : from_str fields s = .ok t) :
    (∀ i, TemplateElement.Var i ∈ t → i < fields.length)
    ∧ (∃ out, displayElems fields t = some out)
    ∧ (∀ vals : List (List Char), vals.length = fields.length →
        ∃ out, formatElems vals t = some out) := by
  obtain ⟨hall, _⟩ := parse_good h
  exact ⟨var_index_lt hall, displayElems_isSome hall,
    fun vals hlen => formatElems_isSome hall hlen⟩

theorem claim_c2_witness :
    (∀ i, TemplateElement.Var i ∈ ([.Text ['a'], .Var 0] : List TemplateElement) →
      i < [("bar").toList].length)
    ∧ (∃ out, displayElems [("bar").toList] [.Text ['a'], .Var 0] = some out)
    ∧ (∀ vals : List (List Char), vals.length = [("bar").toList].length →
        ∃ out, formatElems vals [.Text ['a'], .Var 0] = some out) :=
  claim_c2 [("bar").toList] (("a\x7bbar\x7d").toList) [.Text ['a'], .Var 0] rfl

/-- Claim C3: a successfully parsed element sequence never has two
adjacent `Text` elements. -/
theorem claim_c3 (fields : List (List Char)) (s : List Char) (t : List TemplateElement)
    (h : from_str fields s = .ok t) :
    ∀ i : Nat, ∀ s1 s2 : List Char,
      ¬(t[i]? = some (.Text s1) ∧ t[i + 1]? = some (.Text s2)) :=
  noAdjTexts_spec (parse_good h).2

theorem claim_c3_witness :
    ¬(([.Text ['a'], .Var 0, .Text ['b']] : List TemplateElement)[0]? = some (.Text ['a'])
      ∧ ([.Text ['a'], .Var 0, .Text ['b']] : List TemplateElement)[0 + 1]?
          = some (.Text ['b'])) :=
  claim_c3 [("bar").toList] (("a\x7bbar\x7db").toList)
    [.Text ['a'], .Var 0, .Text ['b']] rfl 0 ['a'] ['b']

/-- Claim C4: when a captured placeholder name is looked up, an absent
name fails the parse with the `UnknownField` error carrying that name, and
a present name resolves to the first matching position, whose `Var` is
appended before scanning continues. -/
theorem claim_c4 (fields : List (List Char)) (name cs : List Char)
    (elems : List TemplateElement) :
    (name ∉ fields →
      parseName fields ('\x7d' :: cs) name elems = .error (.unknownField name))
    ∧ (∀ i, position name fields = some i →
        fields[i]? = some name ∧ (∀ j, j < i → fields[j]? ≠ some name)
        ∧ parseName fields ('\x7d' :: cs) name elems
            = fromStrAux fields cs [] (elems ++ [.Var i])) := by
  constructor
  · intro habs
    rw [parseName_close, position_none.2 habs]
  · intro i hpos
    refine ⟨position_some_get hpos, position_some_first hpos, ?_⟩
    rw [parseName_close, hpos]

theorem claim_c4_witness :
    (parseName [['a'], ['a']] ['\x7d'] ['b'] [] = .error (.unknownField ['b']))
    ∧ ([['a'], ['a']][0]? = some ['a']
        ∧ (∀ j, j < 0 → [['a'], ['a']][j]? ≠ some ['a'])
        ∧ parseName [['a'], ['a']] ['\x7d'] ['a'] []
            = fromStrAux [['a'], ['a']] [] [] [.Var 0]) :=
  ⟨(claim_c4 [['a'], ['a']] ['b'] [] []).1 (by decide),
   (claim_c4 [['a'], ['a']] ['a'] [] []).2 0 (by decide)⟩

/-- Claim C5: a `\x7d` in literal text not followed by another `\x7d`
fails the parse with `UnmatchedClosingBracket`; a `\x7d\x7d` pair appends
one literal `\x7d` to the buffer and the scan continues. -/
theorem claim_c5 (fields : List (List Char)) (cs rest text : List Char)
    (elems : List TemplateElement) :
    ((∀ r, cs ≠ '\x7d' :: r) →
      fromStrAux fields ('\x7d' :: cs) text elems = .error .unmatchedClosing)
    ∧ fromStrAux fields ('\x7d' :: '\x7d' :: rest) text elems
        = fromStrAux fields rest (text ++ ['\x7d']) elems :=
  ⟨fromStrAux_close_err, fromStrAux_closeEsc⟩

theorem claim_c5_witness :
    fromStrAux [] ('\x7d' :: ['a']) [] [] = .error .unmatchedClosing
    ∧ fromStrAux [] ('\x7d' :: '\x7d' :: ['a']) [] []
        = fromStrAux [] ['a'] ([] ++ ['\x7d']) [] :=
  ⟨(claim_c5 [] ['a'] ['a'] [] []).1 (by intro r h; simp at h),
   (claim_c5 [] ['a'] ['a'] [] []).2⟩

/-- Claim C6: an unescaped `\x7b` whose placeholder never reaches a
closing `\x7d` before the input ends fails with `UnclosedPlaceholder`;
the characters between the braces are the field name verbatim. -/
theorem claim_c6 (fields : List (List Char)) (cs f rest text : List Char)
    (elems : List TemplateElement) :
    ((∀ r, cs ≠ '\x7b' :: r) → '\x7d' ∉ cs →
      fromStrAux fields ('\x7b' :: cs) text elems = .error .unclosedBracket)
    ∧ ('\x7d' ∉ f →
      parseName fields (f ++ '\x7d' :: rest) [] elems
        = (match position f fields with
           | none => Except.error (CompileError.unknownField f)
           | some i => fromStrAux fields rest [] (elems ++ [.Var i]))) := by
  constructor
  · intro h1 h2
    rw [fromStrAux_open h1]
    exact parseName_no_close h2 _ _
  · intro hf
    rw [parseName_run fields hf]
    simp

theorem claim_c6_witness :
    fromStrAux [("bar").toList] ('\x7b' :: ("bar").toList) ("Value is ").toList []
        = .error .unclosedBracket
    ∧ parseName [("bar").toList] (("bar").toList ++ '\x7d' :: []) [] []
        = (match position (("bar").toList) [("bar").toList] with
           | none => Except.error (CompileError.unknownField (("bar").toList))
           | some i => fromStrAux [("bar").toList] [] [] ([] ++ [.Var i])) :=
  ⟨(claim_c6 [("bar").toList] (("bar").toList) [] [] (("Value is ").toList) []).1
      (by intro r h; simp at h) (by decide),
   (claim_c6 [("bar").toList] [] (("bar").toList) [] [] []).2 (by decide)⟩

/-- Claim C7: the escaped-brackets test from tests/test.rs: parsing
against fields `bar, qux` and rendering with `bar := 42`,
`qux := test`. -/
theorem claim_c7 :
    from_str [("bar").toList, ("qux").toList]
        (("\x7b\x7bbar\x7d\x7d is \x7bbar\x7d, \x7b\x7b\x7b\x7bqux\x7d\x7d\x7d\x7d is \x7b\x7b\x7bqux\x7d\x7d\x7d").toList)
      = .ok [.Text (("\x7bbar\x7d is ").toList), .Var 0,
             .Text ((", \x7b\x7bqux\x7d\x7d is \x7b").toList), .Var 1,
             .Text (("\x7d").toList)]
    ∧ formatElems [("42").toList, ("test").toList]
        [.Text (("\x7bbar\x7d is ").toList), .Var 0,
         .Text ((", \x7b\x7bqux\x7d\x7d is \x7b").toList), .Var 1,
         .Text (("\x7d").toList)]
      = some (("\x7bbar\x7d is 42, \x7b\x7bqux\x7d\x7d is \x7btest\x7d").toList) :=
  ⟨rfl, rfl⟩

/-- Claim C8: a successfully parsed element sequence is empty exactly when
the source string was empty. -/
theorem claim_c8 (fields : List (List Char)) (s : List Char) (t : List TemplateElement)
    (h : from_str fields s = .ok t) : t = [] ↔ s = [] :=
  parse_nonempty h

theorem claim_c8_witness :
    ([.Text ['a'], .Var 0] : List TemplateElement) = [] ↔ ("a\x7bbar\x7d").toList = [] :=
  claim_c8 [("bar").toList] (("a\x7bbar\x7d").toList) [.Text ['a'], .Var 0] rfl

end Typlate

namespace Typlate

/-- Claim C9: equality, ordering and hashing of compiled templates are
structural over the element sequence only, with `Text` before `Var` in the
tag order and the payload as secondary key; they are independent of the
provider type parameter, and compilation is deterministic. -/
theorem claim_c9 (T U : Type) (a b : List TemplateElement) (s t : List Char)
    (i j : Nat) (hasher : List TemplateElement → UInt64)
    (fields : List (List Char)) (src : List Char) :
    (@TemplateString.beq T ⟨a⟩ ⟨b⟩ = true ↔ a = b)
    ∧ @TemplateString.beq T ⟨a⟩ ⟨b⟩ = @TemplateString.beq U ⟨a⟩ ⟨b⟩
    ∧ @TemplateString.cmp T ⟨a⟩ ⟨b⟩ = listCmp TemplateElement.cmp a b
    ∧ @TemplateString.cmp T ⟨a⟩ ⟨b⟩ = @TemplateString.cmp U ⟨a⟩ ⟨b⟩
    ∧ @TemplateString.hashVia T hasher ⟨a⟩ = hasher a
    ∧ TemplateElement.cmp (.Text s) (.Var i) = .lt
    ∧ TemplateElement.cmp (.Var i) (.Text s) = .gt
    ∧ TemplateElement.cmp (.Text s) (.Text t) = listCmp compare s t
    ∧ TemplateElement.cmp (.Var i) (.Var j) = compare i j
    ∧ from_str fields src = from_str fields src := by
  refine ⟨?_, rfl, rfl, rfl, rfl, rfl, rfl, rfl, rfl, rfl⟩
  simp [TemplateString.beq]

/-- Claim C10: the parser and canonical serializer of lib.rs and those of
string.rs agree on every input, and equal element sequences serialize
identically. -/
theorem claim_c10 (fields : List (List Char)) (s : List Char)
    (a b : List TemplateElement) :
    TyplateString.from_str fields s = from_str fields s
    ∧ (a = b → TyplateString.displayElems fields a = displayElems fields b) := by
  constructor
  · exact (stringImpl_scan_eq s.length fields s le_rfl).1 [] []
  · intro h
    rw [h]
    exact stringImpl_display_eq fields b

theorem claim_c10_witness :
    TyplateString.from_str [("bar").toList] (("a\x7bbar\x7d").toList)
        = from_str [("bar").toList] (("a\x7bbar\x7d").toList)
    ∧ TyplateString.displayElems [("bar").toList] [.Text ['a'], .Var 0]
        = displayElems [("bar").toList] [.Text ['a'], .Var 0] :=
  ⟨(claim_c10 [("bar").toList] (("a\x7bbar\x7d").toList) [.Text ['a'], .Var 0]
      [.Text ['a'], .Var 0]).1,
   (claim_c10 [("bar").toList] (("a\x7bbar\x7d").toList) [.Text ['a'], .Var 0]
      [.Text ['a'], .Var 0]).2 rfl⟩

end Typlate
